import Mathlib

/-!
# Verification of the xfeature core registry

A shallow embedding of `packages/core/src/index.ts` of the xfeature
repository: the hierarchical feature-flag registry, its resolution engine
(`isFeatureEnabled`), the lookup helper (`getFeature`), the bulk loaders
(`loadFeatures`, `loadFeaturesFromString`) and registration
(`registerFeatures`), together with the tree builder
(`defineFeature` / `prefixFeatureName`).

The global `featureRegistry : Map<string, FeatureObject>` is modelled as an
insertion-ordered association list from a node's `qualifiedName`
(`symFeatureName`) to its optional explicit state (`symFeatureEnabled`).
A registered feature object is identified with its registry entry: the
registry stores the object itself, so mutating the object's
`symFeatureEnabled` field is mutating the value found under its name.
-/

namespace XFeature

/-- The feature registry: `qualifiedName ↦ explicitState` in insertion order. -/
abbrev Registry := List (String × Option Bool)

/-- `featureRegistry.get(n)`: `some st` when a node named `n` is registered and
carries explicit state `st`, `none` when `n` is not registered. -/
def lookupEntry : Registry → String → Option (Option Bool)
  | [], _ => none
  | e :: es, n => if e.1 = n then some e.2 else lookupEntry es n

/-- `featureRegistry.has(n)` (truthiness of `featureRegistry.get(n)`). -/
def isRegistered (reg : Registry) (n : String) : Bool :=
  (lookupEntry reg n).isSome

/-- `[...featureRegistry.keys()]`. -/
def regKeys (reg : Registry) : List String :=
  reg.map (fun e => e.1)

/-- `featureRegistry.set(n, v)`: replace in place when the key exists
(a JS `Map` keeps the original position), append otherwise. -/
def setKey : Registry → String → Option Bool → Registry
  | [], n, v => [(n, v)]
  | e :: es, n, v => if e.1 = n then (n, v) :: es else e :: setKey es n v

/-- Writing `feature[symFeatureEnabled] = b` on the registered object named
`n` (a no-op on the registry when no entry carries that name). -/
def setState : Registry → String → Bool → Registry
  | [], _, _ => []
  | e :: es, n, b => (if e.1 = n then (e.1, some b) else e) :: setState es n b

/-- `delete feature[symFeatureEnabled]` for every value of the registry
(the `override` branch of `loadFeatures`). -/
def clearStates (reg : Registry) : Registry :=
  reg.map (fun e => (e.1, (none : Option Bool)))

/-! ## Name decomposition

`isFeatureEnabled` computes
`featureName.split(".").map((_, i, parts) => parts.slice(0, i + 1).join("."))`.
JavaScript's `split` with the one-character separator `"."` is implemented
here directly on the character list, so that `join`/`split` round-trip
lemmas are available. -/

/-- JS `s.split(".")` on the character list (`"".split(".")` is `[""]`). -/
def splitDot : List Char → List (List Char)
  | [] => [[]]
  | c :: cs =>
    let r := splitDot cs
    if c = '.' then [] :: r
    else (c :: r.headD []) :: r.tail

/-- JS `parts.join(".")`. -/
def joinDot : List (List Char) → List Char
  | [] => []
  | [p] => p
  | p :: ps => p ++ '.' :: joinDot ps

/-- The prefix chain of a qualified name, from least to most specific; the
last element is the full name itself
(`"a.b.c"` ↦ `["a", "a.b", "a.b.c"]`). -/
def prefixChain (name : String) : List String :=
  (List.range (splitDot name.data).length).map
    (fun i => ⟨joinDot ((splitDot name.data).take (i + 1))⟩)

/-- The `while (parents.length > 0) { parents.pop(); ... }` loop body of
`isFeatureEnabled`, applied to the already-reversed chain: skip falsy
(empty) names, skip unregistered parents, skip parents without explicit
state, and return the first explicit state found. -/
def walkUp (reg : Registry) : List String → Option Bool
  | [] => none
  | p :: rest =>
    if p = "" then walkUp reg rest
    else
      match lookupEntry reg p with
      | some (some b) => some b
      | _ => walkUp reg rest

/-- `isFeatureEnabled(feature)` of `packages/core/src/index.ts`, for a node
whose `symFeatureName` is `name` and whose own `symFeatureEnabled` is
`ownState`. For a registered node, `ownState = (lookupEntry reg name).join`
since the registry stores the node itself. -/
def isFeatureEnabled (reg : Registry) (name : String) (ownState : Option Bool) : Bool :=
  match ownState with
  | some b => b
  | none =>
    match walkUp reg (prefixChain name).reverse with
    | some b => b
    | none => true

/-- `isFeatureEnabled` as a state transformer: the source performs no
registry mutation during a read (the caching assignment present in the
legacy root copy is commented out in `packages/core`), so the registry
component of the result is the input registry. -/
def isFeatureEnabledRun (reg : Registry) (name : String) (ownState : Option Bool) :
    Bool × Registry :=
  (isFeatureEnabled reg name ownState, reg)

/-! ## Spec-side resolution definitions (for refinement claims)

These follow the wording of the specification's §4.3, to be compared with
the code-side `isFeatureEnabled`. -/

/-- The ancestor chain of the spec: every prefix built by splitting on `"."`,
excluding the node's own full name. -/
def ancestorChain (name : String) : List String :=
  (prefixChain name).dropLast

/-- Spec-side walk: take the first chain element that is registered and has
an explicit state; unregistered or state-less elements are transparent.
(The spec's walk has no rule for skipping an empty name.) -/
def firstExplicit (reg : Registry) : List String → Option Bool
  | [] => none
  | p :: rest =>
    match lookupEntry reg p with
    | some (some b) => some b
    | _ => firstExplicit reg rest

/-- The explicit state of the nearest (most specific) strict ancestor that is
registered and has explicit state, exactly as the claim words it. -/
def nearestExplicitAncestor (reg : Registry) (name : String) : Option Bool :=
  firstExplicit reg (ancestorChain name).reverse

/-- As `nearestExplicitAncestor`, but additionally skipping empty ancestor
names, mirroring the loop's `if (!parentName) continue`. -/
def nearestExplicitAncestorSkipEmpty (reg : Registry) (name : String) : Option Bool :=
  walkUp reg (ancestorChain name).reverse

/-! ## `getFeature` -/

/-- The possible results of `getFeature`: the registered node itself, the
lightweight disabled-marker variant produced by `$asDisabled()` (which
references the node's qualified name and carries the disable flag), or
`null`. -/
inductive GetResult where
  | obj (name : String)
  | marker (name : String)
  | notFound
  deriving DecidableEq, Repr

/-- `feature.startsWith("-")`. -/
def startsWithDash (s : String) : Bool :=
  match s.data with
  | '-' :: _ => true
  | _ => false

/-- `feature.slice(1)`. -/
def dropDash (s : String) : String :=
  ⟨s.data.tail⟩

/-- `getFeature(feature)`: a leading `"-"` is stripped and, when the rest is
registered, the node's `$asDisabled()` marker is returned; otherwise the
registered node or `null`. -/
def getFeature (reg : Registry) (name : String) : GetResult :=
  if startsWithDash name then
    if isRegistered reg (dropDash name) then .marker (dropDash name) else .notFound
  else if isRegistered reg name then .obj name else .notFound

/-! ## `loadFeatures` -/

/-- One element of the list passed to `loadFeatures`:
* `obj n` — a feature object (identified with the registry entry named `n`,
  as produced by `getFeature`/`defineFeature`); real feature objects never
  carry `symFeatureDisableFlag`;
* `marker n` — a `$asDisabled()` value (`symFeatureDisableFlag: true`)
  referencing the node named `n`;
* `notFeature` — a value rejected by `isFeatureObject` (no
  `symFeatureName`). -/
inductive Directive where
  | obj (name : String)
  | marker (name : String)
  | notFeature
  deriving DecidableEq, Repr

/-- The loop body of `loadFeatures`: non-feature values are skipped; a
disabled marker sets the *referenced* registered node's state to `false`
(and is a no-op when the reference is not registered); a feature object
has its own state set to `true`. -/
def applyDirective (reg : Registry) : Directive → Registry
  | .notFeature => reg
  | .marker n => if isRegistered reg n then setState reg n false else reg
  | .obj n => setState reg n true

/-- `loadFeatures(features, override = false)`. -/
def loadFeatures (reg : Registry) (ds : List Directive) (override : Bool) : Registry :=
  ds.foldl applyDirective (if override then clearStates reg else reg)

/-! ## `loadFeaturesFromString` -/

/-- The separator class of `features.split(/[,\n ]+/)`. -/
def isSep (c : Char) : Bool :=
  c = ',' || c = '\n' || c = ' '

/-- JS `s.split(...)` on the separator class, at the character level. -/
def splitSeps : List Char → List (List Char)
  | [] => [[]]
  | c :: cs =>
    let r := splitSeps cs
    if isSep c then [] :: r
    else (c :: r.headD []) :: r.tail

/-- The whitespace class removed by JS `String.prototype.trim` (ASCII part). -/
def isJsSpace (c : Char) : Bool :=
  c = ' ' || c = '\t' || c = '\n' || c = '\r' || c = '\x0b' || c = '\x0c'

/-- `piece.trim()`. -/
def trimChars (cs : List Char) : List Char :=
  ((cs.dropWhile isJsSpace).reverse.dropWhile isJsSpace).reverse

/-- Tokenisation of the configuration string: split on separators, trim each
piece, drop the empty ones. (Splitting on every single separator and
dropping empties afterwards coincides with splitting on separator runs.) -/
def tokensOf (s : String) : List String :=
  (((splitSeps s.data).map trimChars).map (fun cs => (⟨cs⟩ : String))).filter
    (fun t => t ≠ "")

/-- `qualifiedName.includes(".")`. -/
def hasDot (s : String) : Bool :=
  s.data.contains '.'

/-- The error thrown by `loadFeaturesFromString`:
`Feature ${missing} not found. Available features: ${available.join(", ")}`. -/
structure LoadError where
  missing : String
  available : List String
  deriving DecidableEq, Repr

/-- Result of a `loadFeaturesFromString` call: the thrown error (if any)
together with the registry state when the call returns or the exception
propagates. -/
structure LoadOutcome where
  err : Option LoadError
  reg : Registry
  deriving DecidableEq, Repr

/-- The wildcard batch:
`featureRegistry.values().filter(f => !f.$name().includes(".")).map(f => f.$asDisabled())`. -/
def rootMarkers (reg : Registry) : List Directive :=
  (reg.filter (fun e => !(hasDot e.1))).map (fun e => Directive.marker e.1)

/-- The `disablesAllFeatures` branch: `loadFeatures` applied to the disabled
markers of every root-level registered feature. -/
def wildcardPass (reg : Registry) : Registry :=
  loadFeatures reg (rootMarkers reg) false

/-- The `featuresToEnable` construction: tokens `"*"` and `"-*"` are dropped,
every other token is resolved through `getFeature`, and the first
unresolvable token aborts the whole map with a `LoadError`. -/
def resolveTokens (reg : Registry) : List String → Except LoadError (List Directive)
  | [] => .ok []
  | t :: ts =>
    if t = "*" ∨ t = "-*" then resolveTokens reg ts
    else
      match getFeature reg t with
      | .notFound => .error ⟨t, regKeys reg⟩
      | .obj n => (resolveTokens reg ts).map (fun ds => Directive.obj n :: ds)
      | .marker n => (resolveTokens reg ts).map (fun ds => Directive.marker n :: ds)

/-- `loadFeaturesFromString(features)`: tokenize; when `"-*"` occurs anywhere
in the token list, first run the wildcard disable-all batch; then resolve
every named token (which may throw, leaving the wildcard mutation in
place), and only then apply the resolved directives. -/
def loadFeaturesFromString (reg : Registry) (s : String) : LoadOutcome :=
  let ts := tokensOf s
  let reg1 := if "-*" ∈ ts then wildcardPass reg else reg
  match resolveTokens reg1 ts with
  | .error e => ⟨some e, reg1⟩
  | .ok ds => ⟨none, loadFeatures reg1 ds false⟩

/-! ## Lemmas about the name decomposition and the resolution walk -/

theorem splitDot_ne_nil (cs : List Char) : splitDot cs ≠ [] := by
  cases cs with
  | nil => simp [splitDot]
  | cons c cs =>
    simp only [splitDot]
    split <;> simp

theorem joinDot_cons (p : List Char) (ps : List (List Char)) (h : ps ≠ []) :
    joinDot (p :: ps) = p ++ '.' :: joinDot ps := by
  cases ps with
  | nil => exact absurd rfl h
  | cons q qs => rfl

theorem joinDot_splitDot (cs : List Char) : joinDot (splitDot cs) = cs := by
  induction cs with
  | nil => rfl
  | cons c cs ih =>
    simp only [splitDot]
    split
    · next hc =>
      rw [joinDot_cons _ _ (splitDot_ne_nil cs), ih, hc]
      rfl
    · next hc =>
      obtain ⟨h, t, ht⟩ : ∃ h t, splitDot cs = h :: t := by
        cases hs : splitDot cs with
        | nil => exact absurd hs (splitDot_ne_nil cs)
        | cons h t => exact ⟨h, t, rfl⟩
      rw [ht] at ih ⊢
      cases t with
      | nil => simpa [joinDot] using ih
      | cons u us =>
        simp only [List.headD_cons, List.tail_cons]
        rw [joinDot_cons (c :: h) (u :: us) (by simp)]
        rw [joinDot_cons h (u :: us) (by simp)] at ih
        rw [List.cons_append, ih]

theorem prefixChain_eq_append (name : String) :
    prefixChain name = ancestorChain name ++ [name] := by
  obtain ⟨m, hm⟩ : ∃ m, (splitDot name.data).length = m + 1 := by
    have h := splitDot_ne_nil name.data
    cases hs : splitDot name.data with
    | nil => exact absurd hs h
    | cons p ps => exact ⟨ps.length, by simp [hs]⟩
  have hchain : prefixChain name =
      (List.range m).map
        (fun i => (⟨joinDot ((splitDot name.data).take (i + 1))⟩ : String)) ++ [name] := by
    unfold prefixChain
    rw [hm, List.range_succ, List.map_append]

    congr 1
    simp only [List.map_cons, List.map_nil]
    congr 1
    rw [← hm, List.take_length, joinDot_splitDot]
  rw [hchain]
  unfold ancestorChain
  rw [hchain, List.dropLast_concat]

theorem walkUp_cons (reg : Registry) (p : String) (rest : List String) :
    walkUp reg (p :: rest) =
      if p = "" then walkUp reg rest
      else
        match lookupEntry reg p with
        | some (some b) => some b
        | _ => walkUp reg rest := rfl

theorem walkUp_cons_skip (reg : Registry) (p : String) (rest : List String)
    (h : ∀ b, lookupEntry reg p ≠ some (some b)) :
    walkUp reg (p :: rest) = walkUp reg rest := by
  rw [walkUp_cons]
  split
  · rfl
  · cases hl : lookupEntry reg p with
    | none => rfl
    | some st =>
      cases st with
      | none => rfl
      | some b => exact absurd hl (h b)

theorem walkUp_eq_none (reg : Registry) (l : List String)
    (h : ∀ p ∈ l, ∀ b, lookupEntry reg p ≠ some (some b)) :
    walkUp reg l = none := by
  induction l with
  | nil => rfl
  | cons p rest ih =>
    rw [walkUp_cons_skip reg p rest (h p (by simp))]
    exact ih (fun q hq b => h q (by simp [hq]) b)

/-- Resolution of a node whose own explicit state is unset (and whose registry
entry, if any, is state-less) is the skip-aware ancestor walk, defaulting to
`true`. -/
theorem isFeatureEnabled_unset_eq_walk (reg : Registry) (name : String)
    (hown : ∀ b, lookupEntry reg name ≠ some (some b)) :
    isFeatureEnabled reg name none =
      (nearestExplicitAncestorSkipEmpty reg name).getD true := by
  unfold isFeatureEnabled
  have hrev : (prefixChain name).reverse = name :: (ancestorChain name).reverse := by
    rw [prefixChain_eq_append]; simp
  rw [hrev, walkUp_cons_skip reg name _ hown]
  unfold nearestExplicitAncestorSkipEmpty
  cases walkUp reg (ancestorChain name).reverse <;> rfl

/-! ## Claim C1 -/

/-- C1 as frozen is false on the code: the resolution loop skips a *falsy*
(empty) ancestor name even when that ancestor is registered and carries an
explicit state. Concretely, with the feature `""` registered and explicitly
disabled, the node `".a"` (own state unset, registered state-less) has
nearest registered explicit-state ancestor `""` with state `false`, yet
`isFeatureEnabled` returns `true`. -/
theorem isFeatureEnabled_skips_registered_empty_ancestor :
    lookupEntry [("", some false), (".a", none)] ".a" = some none ∧
    nearestExplicitAncestor [("", some false), (".a", none)] ".a" = some false ∧
    isFeatureEnabled [("", some false), (".a", none)] ".a" none = true := by
  decide

/-- C1 (amended): if the node's own `explicitState` is set, `isFeatureEnabled`
returns exactly that value with no ancestor walk; otherwise (for a node
whose registry entry is state-less) it returns the `explicitState` of the
nearest registered strict ancestor that has one, skipping over any ancestor
that is unregistered, state-less, or *empty-named*. -/
theorem isFeatureEnabled_resolves_by_precedence (reg : Registry) (name : String)
    (own : Option Bool) (b : Bool)
    (h : own = some b ∨
      (own = none ∧ lookupEntry reg name = some none ∧
        nearestExplicitAncestorSkipEmpty reg name = some b)) :
    isFeatureEnabled reg name own = b := by
  rcases h with h | ⟨hown, hreg, hanc⟩
  · rw [h]; rfl
  · rw [hown, isFeatureEnabled_unset_eq_walk reg name (fun c hc => by rw [hreg] at hc; cases hc),
      hanc]
    rfl

/-- C1 witness: in `[("a", some false), ("a.b", none)]` the unset node `"a.b"`
resolves to its explicitly disabled parent `"a"`. -/
theorem isFeatureEnabled_resolves_by_precedence_witness :
    isFeatureEnabled [("a", some false), ("a.b", none)] "a.b" none = false :=
  isFeatureEnabled_resolves_by_precedence _ _ _ _ (Or.inr ⟨rfl, by decide, by decide⟩)

/-! ## Claim C2 -/

/-- C2: a node whose own explicit state is unset and none of whose registered
ancestor-chain entries carries an explicit state resolves to `true`
(default-enabled policy), including the root-level case of an empty
ancestor chain. -/
theorem isFeatureEnabled_default_true (reg : Registry) (name : String)
    (hown : ∀ b, lookupEntry reg name ≠ some (some b))
    (hanc : ∀ p ∈ ancestorChain name, ∀ b, lookupEntry reg p ≠ some (some b)) :
    isFeatureEnabled reg name none = true := by
  rw [isFeatureEnabled_unset_eq_walk reg name hown]
  unfold nearestExplicitAncestorSkipEmpty
  rw [walkUp_eq_none reg _ (fun p hp => hanc p (List.mem_reverse.mp hp))]
  rfl

/-- C2 witness: the registered root `"one"` with no explicit state anywhere is
enabled. -/
theorem isFeatureEnabled_default_true_witness :
    isFeatureEnabled [("one", none)] "one" none = true :=
  isFeatureEnabled_default_true _ _ (by decide) (by decide)

/-! ## Claim C5 -/

/-- C5: a read through `isFeatureEnabled` leaves the registry untouched (the
run returns the input registry: nothing is cached by a read), and therefore
a later change of an ancestor's explicit state — here `reg'` obtained from
`reg` by writing state `b` on the node named `p` — is immediately visible
to an unset descendant that now resolves through that ancestor. -/
theorem isFeatureEnabled_pure_read (reg reg' : Registry) (name p : String)
    (own : Option Bool) (b : Bool)
    (hupd : reg' = setState reg p b)
    (hreg : lookupEntry reg' name = some none)
    (hanc : nearestExplicitAncestorSkipEmpty reg' name = some b) :
    (isFeatureEnabledRun reg name own).2 = reg ∧
    (isFeatureEnabledRun reg' name none).1 = b := by
  subst hupd
  refine ⟨rfl, ?_⟩
  show isFeatureEnabled (setState reg p b) name none = b
  rw [isFeatureEnabled_unset_eq_walk (setState reg p b) name
    (fun c hc => by rw [hreg] at hc; cases hc), hanc]
  rfl

/-- C5 witness: disabling the parent `"a"` is immediately reflected at the
unset child `"a.b"`, and reads mutate nothing. -/
theorem isFeatureEnabled_pure_read_witness :
    (isFeatureEnabledRun [("a", none), ("a.b", none)] "a.b" none).2 =
      [("a", none), ("a.b", none)] ∧
    (isFeatureEnabledRun [("a", some false), ("a.b", none)] "a.b" none).1 = false :=
  isFeatureEnabled_pure_read [("a", none), ("a.b", none)] _ "a.b" "a" none false
    (by decide) (by decide) (by decide)

/-! ## Key-preservation lemmas: loading never adds or removes registry keys -/

theorem regKeys_setState (reg : Registry) (n : String) (b : Bool) :
    regKeys (setState reg n b) = regKeys reg := by
  induction reg with
  | nil => rfl
  | cons e es ih =>
    simp only [setState, regKeys, List.map_cons] at ih ⊢
    rw [ih]
    split <;> simp

theorem isRegistered_iff_mem (reg : Registry) (n : String) :
    isRegistered reg n = true ↔ n ∈ regKeys reg := by
  induction reg with
  | nil => simp [isRegistered, lookupEntry, regKeys]
  | cons e es ih =>
    simp only [isRegistered, lookupEntry] at ih ⊢
    by_cases he : e.1 = n
    · simp [he, regKeys]
    · simp only [if_neg he, regKeys, List.map_cons, List.mem_cons, ih]
      constructor
      · exact fun h => Or.inr h
      · rintro (h | h)
        · exact absurd h.symm he
        · exact h

theorem isRegistered_congr (reg reg' : Registry) (n : String)
    (h : regKeys reg = regKeys reg') : isRegistered reg n = isRegistered reg' n := by
  rw [Bool.eq_iff_iff, isRegistered_iff_mem, isRegistered_iff_mem, h]

theorem regKeys_applyDirective (reg : Registry) (d : Directive) :
    regKeys (applyDirective reg d) = regKeys reg := by
  cases d with
  | notFeature => rfl
  | obj n => exact regKeys_setState reg n true
  | marker n =>
    simp only [applyDirective]
    split
    · exact regKeys_setState reg n false
    · rfl

theorem regKeys_foldl_applyDirective (ds : List Directive) (reg : Registry) :
    regKeys (ds.foldl applyDirective reg) = regKeys reg := by
  induction ds generalizing reg with
  | nil => rfl
  | cons d ds ih => rw [List.foldl_cons, ih, regKeys_applyDirective]

/-! ## Claim C8 -/

/-- C8: `getFeature` is total (the embedding is a function, never an
exception) and behaves by cases: a name starting with `"-"` has the marker
stripped, and the lookup of the remainder yields either the disabled-marker
variant referencing that node — a `marker`, not the `obj` node itself — or
the not-found indicator; any other name yields the registered node or the
not-found indicator. -/
theorem getFeature_total_cases (reg : Registry) (name : String) :
    (startsWithDash name = true → isRegistered reg (dropDash name) = true →
      getFeature reg name = .marker (dropDash name)) ∧
    (startsWithDash name = true → isRegistered reg (dropDash name) = false →
      getFeature reg name = .notFound) ∧
    (startsWithDash name = false → isRegistered reg name = true →
      getFeature reg name = .obj name) ∧
    (startsWithDash name = false → isRegistered reg name = false →
      getFeature reg name = .notFound) := by
  unfold getFeature
  refine ⟨?_, ?_, ?_, ?_⟩ <;> intro h1 h2 <;> simp [h1, h2]

/-- C8 witness: `getFeature("-x")` with `"x"` registered returns the
disabled-marker referencing `"x"`. -/
theorem getFeature_total_cases_witness :
    getFeature [("x", none)] "-x" = GetResult.marker "x" :=
  (getFeature_total_cases [("x", none)] "-x").1 (by decide) (by decide)

/-! ## Claim C9 -/

/-- C9: `loadFeaturesFromString` applied to the empty string throws nothing
and leaves the registry — its key set and every explicit state — exactly
unchanged. -/
theorem loadFromString_empty_noop (reg : Registry) :
    loadFeaturesFromString reg "" = ⟨none, reg⟩ := rfl

/-! ## Claim C10 -/

/-- C10: `loadFeatures` silently skips a disabled-marker whose referenced
name is not registered, as well as any element that is not a feature
object: deleting such an element from the directive list does not change
the resulting registry, so every other directive is still applied and no
state is mutated by the skipped element. -/
theorem loadFeatures_skips_unresolvable (reg : Registry) (ds₁ ds₂ : List Directive)
    (d : Directive)
    (h : d = Directive.notFeature ∨
      ∃ n, d = Directive.marker n ∧ isRegistered reg n = false) :
    loadFeatures reg (ds₁ ++ d :: ds₂) false = loadFeatures reg (ds₁ ++ ds₂) false := by
  have happly : applyDirective (ds₁.foldl applyDirective reg) d =
      ds₁.foldl applyDirective reg := by
    rcases h with h | ⟨n, hd, hn⟩
    · rw [h]; rfl
    · rw [hd]
      have hreg : isRegistered (ds₁.foldl applyDirective reg) n = false := by
        rw [isRegistered_congr _ reg n (regKeys_foldl_applyDirective ds₁ reg), hn]
      simp [applyDirective, hreg]
  calc loadFeatures reg (ds₁ ++ d :: ds₂) false
      = ds₂.foldl applyDirective (applyDirective (ds₁.foldl applyDirective reg) d) := by
        simp [loadFeatures, List.foldl_append]
    _ = ds₂.foldl applyDirective (ds₁.foldl applyDirective reg) := by rw [happly]
    _ = loadFeatures reg (ds₁ ++ ds₂) false := by
        simp [loadFeatures, List.foldl_append]

/-- C10 witness: a marker referencing the unregistered `"zz"` is skipped
while the enable directive for `"a"` is still applied. -/
theorem loadFeatures_skips_unresolvable_witness :
    loadFeatures [("a", none)] [Directive.obj "a", Directive.marker "zz"] false =
      loadFeatures [("a", none)] [Directive.obj "a"] false :=
  loadFeatures_skips_unresolvable [("a", none)] [Directive.obj "a"] [] (Directive.marker "zz")
    (Or.inr ⟨"zz", rfl, by decide⟩)

/-! ## Characterising a directive batch as a per-key overwrite

Every directive writes a constant state to a fixed key (or nothing), so a
whole `loadFeatures` batch acts on the registry as a per-entry overwrite
determined by the directive list alone. -/

/-- Apply an optional pending write over an existing state. -/
def overlay (w st : Option Bool) : Option Bool :=
  match w with
  | some b => some b
  | none => st

/-- The state a single directive writes to the key `q`, if any. -/
def dirWrite (d : Directive) (q : String) : Option Bool :=
  match d with
  | .obj n => if q = n then some true else none
  | .marker n => if q = n then some false else none
  | .notFeature => none

/-- The last write a directive list performs on the key `q`, if any. -/
def writesOf (ds : List Directive) (q : String) : Option Bool :=
  ds.foldl (fun acc d => overlay (dirWrite d q) acc) none

theorem overlay_none_right (w : Option Bool) : overlay w none = w := by
  cases w <;> rfl

theorem overlay_assoc (w₂ w₁ st : Option Bool) :
    overlay w₂ (overlay w₁ st) = overlay (overlay w₂ w₁) st := by
  cases w₂ <;> cases w₁ <;> rfl

theorem writesOf_foldl_init (ds : List Directive) (q : String) (init : Option Bool) :
    ds.foldl (fun acc d => overlay (dirWrite d q) acc) init =
      overlay (writesOf ds q) init := by
  induction ds generalizing init with
  | nil => simp [writesOf, overlay]
  | cons d ds ih =>
    rw [List.foldl_cons, ih, show writesOf (d :: ds) q =
      overlay (writesOf ds q) (dirWrite d q) from by
        rw [writesOf, List.foldl_cons, ih, overlay_none_right],
      overlay_assoc]

theorem writesOf_cons (d : Directive) (ds : List Directive) (q : String) :
    writesOf (d :: ds) q = overlay (writesOf ds q) (dirWrite d q) := by
  rw [writesOf, List.foldl_cons, writesOf_foldl_init, overlay_none_right]

theorem lookupEntry_map_entryKey (g : String → Option Bool → Option Bool)
    (reg : Registry) (n : String) :
    lookupEntry (reg.map (fun e => (e.1, g e.1 e.2))) n =
      (lookupEntry reg n).map (g n) := by
  induction reg with
  | nil => rfl
  | cons e es ih =>
    simp only [List.map_cons, lookupEntry]
    by_cases he : e.1 = n
    · subst he; simp
    · simp [he, ih]

theorem setState_eq_map (reg : Registry) (n : String) (b : Bool) :
    setState reg n b =
      reg.map (fun e => (e.1, overlay (if e.1 = n then some b else none) e.2)) := by
  induction reg with
  | nil => rfl
  | cons e es ih =>
    simp only [setState, List.map_cons, ih]
    by_cases he : e.1 = n <;> simp [he, overlay]

theorem not_registered_keys (reg : Registry) (n : String)
    (h : isRegistered reg n = false) : ∀ e ∈ reg, e.1 ≠ n := by
  intro e he hcontra
  have hmem : n ∈ regKeys reg := by
    simp only [regKeys, List.mem_map]
    exact ⟨e, he, hcontra⟩
  rw [← isRegistered_iff_mem] at hmem
  rw [h] at hmem
  cases hmem

theorem foldl_applyDirective_eq_map (ds : List Directive) (reg : Registry) :
    ds.foldl applyDirective reg =
      reg.map (fun e => (e.1, overlay (writesOf ds e.1) e.2)) := by
  induction ds generalizing reg with
  | nil =>
    have hid : (fun (e : String × Option Bool) => (e.1, overlay (writesOf [] e.1) e.2)) =
        fun e => e := by
      funext e; cases e; rfl
    rw [List.foldl_nil, hid, List.map_id']
  | cons d ds ih =>
    rw [List.foldl_cons, ih]
    cases d with
    | notFeature =>
      refine List.map_congr_left (fun e he => ?_)
      rw [writesOf_cons]
      simp [dirWrite, overlay_none_right]
    | obj n =>
      rw [show applyDirective reg (Directive.obj n) = setState reg n true from rfl,
        setState_eq_map, List.map_map]
      refine List.map_congr_left (fun e he => ?_)
      simp only [Function.comp]
      rw [writesOf_cons, ← overlay_assoc]
      simp [dirWrite]
    | marker n =>
      show (if isRegistered reg n then setState reg n false else reg).map _ = _
      split
      · next hr =>
        rw [setState_eq_map, List.map_map]
        refine List.map_congr_left (fun e he => ?_)
        simp only [Function.comp]
        rw [writesOf_cons, ← overlay_assoc]
        simp [dirWrite]
      · next hr =>
        refine List.map_congr_left (fun e he => ?_)
        have hne : e.1 ≠ n :=
          not_registered_keys reg n (by simpa using hr) e he
        rw [writesOf_cons]
        simp [dirWrite, hne, overlay_none_right]

/-! ## The wildcard disable-all pass -/

theorem writesOf_markers (names : List String) (q : String) :
    writesOf (names.map Directive.marker) q =
      if q ∈ names then some false else none := by
  induction names with
  | nil => simp [writesOf]
  | cons n ns ih =>
    rw [List.map_cons, writesOf_cons, ih]
    by_cases hq : q = n
    · subst hq
      by_cases hm : q ∈ ns <;> simp [dirWrite, overlay, hm]
    · by_cases hm : q ∈ ns <;> simp [dirWrite, overlay, hq, hm]

theorem rootMarkers_eq_keys (reg : Registry) :
    rootMarkers reg =
      ((regKeys reg).filter (fun n => !(hasDot n))).map Directive.marker := by
  induction reg with
  | nil => rfl
  | cons e es ih =>
    simp only [rootMarkers, regKeys, List.map_cons, List.filter_cons] at ih ⊢
    by_cases he : hasDot e.1 <;> simp [he, ih]

theorem lookupEntry_foldl_applyDirective (ds : List Directive) (reg : Registry)
    (n : String) :
    lookupEntry (ds.foldl applyDirective reg) n =
      (lookupEntry reg n).map (fun st => overlay (writesOf ds n) st) := by
  rw [foldl_applyDirective_eq_map]
  exact lookupEntry_map_entryKey (fun q st => overlay (writesOf ds q) st) reg n

/-- Per-key effect of the `"-*"` batch: every registered root-level node
(whose name has no dot) is explicitly disabled; every other entry — in
particular every non-root node — keeps its state untouched. -/
theorem lookupEntry_wildcardPass (reg : Registry) (n : String) :
    lookupEntry (wildcardPass reg) n =
      (lookupEntry reg n).map (fun st => if hasDot n then st else some false) := by
  have hwp : wildcardPass reg = (rootMarkers reg).foldl applyDirective reg := by
    simp [wildcardPass, loadFeatures]
  rw [hwp, lookupEntry_foldl_applyDirective]
  cases hl : lookupEntry reg n with
  | none => rfl
  | some st =>
    simp only [Option.map_some']
    congr 1
    rw [rootMarkers_eq_keys, writesOf_markers]
    by_cases hd : hasDot n
    · have hnot : n ∉ (regKeys reg).filter (fun m => !(hasDot m)) := by
        intro hmem
        have := (List.mem_filter.mp hmem).2
        simp [hd] at this
      simp [hnot, hd, overlay]
    · have hmem : n ∈ (regKeys reg).filter (fun m => !(hasDot m)) := by
        refine List.mem_filter.mpr ⟨?_, by simp [hd]⟩
        rw [← isRegistered_iff_mem]
        simp [isRegistered, hl]
      simp [hmem, hd, overlay]

theorem regKeys_wildcardPass (reg : Registry) :
    regKeys (wildcardPass reg) = regKeys reg := by
  simp [wildcardPass, loadFeatures, regKeys_foldl_applyDirective]

/-! ## Claim C3 -/

/-- C3: when `"-*"` occurs anywhere among the tokens, `loadFeaturesFromString`
first applies — as one batch, before any individually named token is
resolved or applied — the wildcard pass, which sets the explicit state of
exactly the registered root-level nodes (names without a dot) to `false`
and leaves every non-root entry untouched; named-token processing then
proceeds from that wildcard-mutated registry. -/
theorem loadFromString_wildcard_first (reg : Registry) (s : String)
    (hw : "-*" ∈ tokensOf s) :
    (∀ n, lookupEntry (wildcardPass reg) n =
      (lookupEntry reg n).map (fun st => if hasDot n then st else some false)) ∧
    loadFeaturesFromString reg s =
      (match resolveTokens (wildcardPass reg) (tokensOf s) with
       | .error e => ⟨some e, wildcardPass reg⟩
       | .ok ds => ⟨none, loadFeatures (wildcardPass reg) ds false⟩) := by
  refine ⟨fun n => lookupEntry_wildcardPass reg n, ?_⟩
  simp only [loadFeaturesFromString, if_pos hw]

/-- C3 witness: on `[("a", none), ("a.b", none)]` the wildcard pass of the
string `"-*"` disables the root `"a"` and leaves the child `"a.b"`
state-less. -/
theorem loadFromString_wildcard_first_witness :
    lookupEntry (wildcardPass [("a", none), ("a.b", none)]) "a" = some (some false) ∧
    lookupEntry (wildcardPass [("a", none), ("a.b", none)]) "a.b" = some none := by
  constructor
  · rw [(loadFromString_wildcard_first [("a", none), ("a.b", none)] "-*" (by decide)).1 "a"]
    decide
  · rw [(loadFromString_wildcard_first [("a", none), ("a.b", none)] "-*" (by decide)).1 "a.b"]
    decide

/-! ## Claim C4 -/

/-- Token classifier of the per-name pass: a token other than the reserved
`"*"`/`"-*"` whose `getFeature` lookup comes back empty. -/
def isUnknownTok (reg : Registry) (t : String) : Bool :=
  if t = "*" ∨ t = "-*" then false
  else
    match getFeature reg t with
    | .notFound => true
    | _ => false

theorem getFeature_congr (reg reg' : Registry) (n : String)
    (h : regKeys reg = regKeys reg') : getFeature reg n = getFeature reg' n := by
  unfold getFeature
  rw [isRegistered_congr _ _ (dropDash n) h, isRegistered_congr _ _ n h]

theorem isUnknownTok_congr (reg reg' : Registry) (t : String)
    (h : regKeys reg = regKeys reg') : isUnknownTok reg t = isUnknownTok reg' t := by
  unfold isUnknownTok
  rw [getFeature_congr _ _ t h]

/-- Resolution aborts at the first unknown token, reporting it together with
the currently registered names. -/
theorem resolveTokens_error_of_unknown (reg : Registry) (ts : List String)
    (h : ∃ t ∈ ts, isUnknownTok reg t = true) :
    ∃ u, ts.find? (isUnknownTok reg) = some u ∧
      resolveTokens reg ts = .error ⟨u, regKeys reg⟩ := by
  induction ts with
  | nil =>
    obtain ⟨t, ht, _⟩ := h
    cases ht
  | cons t ts ih =>
    by_cases hskip : t = "*" ∨ t = "-*"
    · have hfalse : isUnknownTok reg t = false := by simp [isUnknownTok, hskip]
      have h' : ∃ x ∈ ts, isUnknownTok reg x = true := by
        obtain ⟨x, hx, hux⟩ := h
        rcases List.mem_cons.mp hx with rfl | hx'
        · rw [hfalse] at hux; cases hux
        · exact ⟨x, hx', hux⟩
      obtain ⟨u, hfind, hres⟩ := ih h'
      refine ⟨u, ?_, ?_⟩
      · simp [List.find?, hfalse, hfind]
      · simp only [resolveTokens, if_pos hskip]
        exact hres
    · cases hg : getFeature reg t with
      | notFound =>
        have htrue : isUnknownTok reg t = true := by simp [isUnknownTok, hskip, hg]
        refine ⟨t, by simp [List.find?, htrue], ?_⟩
        simp only [resolveTokens, if_neg hskip, hg]
      | obj n =>
        have hfalse : isUnknownTok reg t = false := by simp [isUnknownTok, hskip, hg]
        have h' : ∃ x ∈ ts, isUnknownTok reg x = true := by
          obtain ⟨x, hx, hux⟩ := h
          rcases List.mem_cons.mp hx with rfl | hx'
          · rw [hfalse] at hux; cases hux
          · exact ⟨x, hx', hux⟩
        obtain ⟨u, hfind, hres⟩ := ih h'
        refine ⟨u, by simp [List.find?, hfalse, hfind], ?_⟩
        simp only [resolveTokens, if_neg hskip, hg]
        rw [hres]
        rfl
      | marker n =>
        have hfalse : isUnknownTok reg t = false := by simp [isUnknownTok, hskip, hg]
        have h' : ∃ x ∈ ts, isUnknownTok reg x = true := by
          obtain ⟨x, hx, hux⟩ := h
          rcases List.mem_cons.mp hx with rfl | hx'
          · rw [hfalse] at hux; cases hux
          · exact ⟨x, hx', hux⟩
        obtain ⟨u, hfind, hres⟩ := ih h'
        refine ⟨u, by simp [List.find?, hfalse, hfind], ?_⟩
        simp only [resolveTokens, if_neg hskip, hg]
        rw [hres]
        rfl

/-- C4: a configuration string containing a token that is neither reserved
(`"*"`, `"-*"`) nor resolvable through `getFeature` makes
`loadFeaturesFromString` fail with the Lookup error naming the first such
token together with all registered names; at that point the registry holds
exactly the wildcard-pass result (when `"-*"` was present) and is otherwise
untouched — no individually named token has changed any explicit state,
because all named tokens are resolved before `loadFeatures` runs. -/
theorem loadFromString_unknown_token_error (reg : Registry) (s : String) (t : String)
    (ht : t ∈ tokensOf s) (h1 : t ≠ "*") (h2 : t ≠ "-*")
    (h3 : getFeature reg t = .notFound) :
    ∃ u, (tokensOf s).find?
        (isUnknownTok (if "-*" ∈ tokensOf s then wildcardPass reg else reg)) = some u ∧
      isUnknownTok reg u = true ∧
      loadFeaturesFromString reg s =
        ⟨some ⟨u, regKeys reg⟩, if "-*" ∈ tokensOf s then wildcardPass reg else reg⟩ ∧
      (∀ n, lookupEntry (loadFeaturesFromString reg s).reg n =
        (lookupEntry reg n).map (fun st =>
          if "-*" ∈ tokensOf s then (if hasDot n then st else some false) else st)) := by
  have hkeys : regKeys (if "-*" ∈ tokensOf s then wildcardPass reg else reg) = regKeys reg := by
    split
    · exact regKeys_wildcardPass reg
    · rfl
  have hunk : isUnknownTok (if "-*" ∈ tokensOf s then wildcardPass reg else reg) t = true := by
    rw [isUnknownTok_congr _ reg t hkeys]
    simp [isUnknownTok, h1, h2, h3]
  obtain ⟨u, hfind, hres⟩ :=
    resolveTokens_error_of_unknown (if "-*" ∈ tokensOf s then wildcardPass reg else reg)
      (tokensOf s) ⟨t, ht, hunk⟩
  have hout : loadFeaturesFromString reg s =
      ⟨some ⟨u, regKeys reg⟩, if "-*" ∈ tokensOf s then wildcardPass reg else reg⟩ := by
    simp only [loadFeaturesFromString]
    rw [hres, hkeys]
  refine ⟨u, hfind, ?_, hout, ?_⟩
  · rw [← isUnknownTok_congr _ reg u hkeys]
    exact List.find?_some hfind
  · intro n
    rw [hout]
    show lookupEntry (if "-*" ∈ tokensOf s then wildcardPass reg else reg) n = _
    split
    · exact lookupEntry_wildcardPass reg n
    · cases lookupEntry reg n <;> rfl

/-- C4 witness: loading `"b"` against a registry holding only `"a"` fails
with the Lookup error naming `"b"` and listing `["a"]`, leaving the
registry untouched. -/
theorem loadFromString_unknown_token_error_witness :
    loadFeaturesFromString [("a", none)] "b" =
      ⟨some ⟨"b", ["a"]⟩, [("a", none)]⟩ := by
  obtain ⟨u, hfind, hunk, hout, hchar⟩ :=
    loadFromString_unknown_token_error [("a", none)] "b" "b"
      (by decide) (by decide) (by decide) (by decide)
  have hcomp : (tokensOf "b").find?
      (isUnknownTok (if "-*" ∈ tokensOf "b" then wildcardPass [("a", none)]
        else [("a", none)])) = some "b" := by decide
  rw [hcomp] at hfind
  obtain rfl : "b" = u := Option.some.inj hfind
  rw [hout]
  decide

/-! ## Registration (`registerFeatures`)

A feature forest as passed to `registerFeatures`: each tree is a feature
object (its record of enumerable string keys holding the sub-feature
objects; symbol-keyed fields are not enumerated, so `register` recurses
exactly through the children). A node carries its `symFeatureLeafName`,
its current `symFeatureName`, its `symFeatureEnabled` state, and its
children in record insertion order. -/
inductive FNode where
  | mk (leaf : String) (qName : String) (state : Option Bool) (kids : List FNode)

mutual

/-- The body of `register`: `featureRegistry.set(feature[symFeatureName],
feature)` followed by recursion into the feature's enumerable keys. -/
def insertTree : Registry → FNode → Registry
  | reg, .mk _ q st kids => insertForest (setKey reg q st) kids

/-- `register` over a record of features, in key order. -/
def insertForest : Registry → List FNode → Registry
  | reg, [] => reg
  | reg, t :: ts => insertForest (insertTree reg t) ts

end

/-- `registerFeatures(features, { override })` without the environment load:
clear the registry when `override` is set, then flatten the forest. -/
def registerFeatures (reg : Registry) (F : List FNode) (override : Bool) : Registry :=
  insertForest (if override then [] else reg) F

/-- `registerFeatures(features, { override, parseEnv })` with the automatic
environment load: after flattening, `loadFeaturesFromString` runs on the
configuration string `s` read from the environment (`s = ""` when the
variable is unset, which by the empty-string case is a no-op, and thus
also models `parseEnv: false`). -/
def registerAndLoad (reg : Registry) (F : List FNode) (override : Bool) (s : String) :
    LoadOutcome :=
  loadFeaturesFromString (registerFeatures reg F override) s

mutual

/-- The forest object as it stands after an earlier registration left the
states `ρ` on the registered objects: every node whose name is registered
carries the state recorded in `ρ` (the node *is* the registry value). -/
def updateTree (ρ : Registry) : FNode → FNode
  | .mk l q st kids => .mk l q ((lookupEntry ρ q).getD st) (updateForest ρ kids)

def updateForest (ρ : Registry) : List FNode → List FNode
  | [] => []
  | t :: ts => updateTree ρ t :: updateForest ρ ts

end

mutual

/-- A freshly defined node: `defineFeature` never sets `symFeatureEnabled`. -/
def treeStatesNone : FNode → Bool
  | .mk _ _ st kids => st == none && forestStatesNone kids

def forestStatesNone : List FNode → Bool
  | [] => true
  | t :: ts => treeStatesNone t && forestStatesNone ts

end

/-- Overwrite every entry of `r` with the state recorded for its key in `ρ`
(keeping the entry's own state when `ρ` does not know the key). -/
def overwriteFrom (ρ r : Registry) : Registry :=
  r.map (fun e => (e.1, (lookupEntry ρ e.1).getD e.2))

theorem setKey_overwriteFrom (ρ r : Registry) (q : String) (st : Option Bool) :
    setKey (overwriteFrom ρ r) q ((lookupEntry ρ q).getD st) =
      overwriteFrom ρ (setKey r q st) := by
  induction r with
  | nil => rfl
  | cons e es ih =>
    simp only [overwriteFrom, List.map_cons, setKey] at ih ⊢
    by_cases he : e.1 = q
    · subst he
      simp
    · simp only [if_neg he, List.map_cons]
      rw [ih]

mutual

theorem insertTree_overwrite (ρ : Registry) (t : FNode) (r : Registry) :
    insertTree (overwriteFrom ρ r) (updateTree ρ t) = overwriteFrom ρ (insertTree r t) := by
  cases t with
  | mk l q st kids =>
    simp only [updateTree, insertTree]
    rw [setKey_overwriteFrom]
    exact insertForest_overwrite ρ kids (setKey r q st)

theorem insertForest_overwrite (ρ : Registry) (F : List FNode) (r : Registry) :
    insertForest (overwriteFrom ρ r) (updateForest ρ F) =
      overwriteFrom ρ (insertForest r F) := by
  cases F with
  | nil => simp only [updateForest, insertForest]
  | cons t ts =>
    simp only [updateForest, insertForest]
    rw [insertTree_overwrite ρ t r]
    exact insertForest_overwrite ρ ts (insertTree r t)

end

theorem setKey_states_none (r : Registry) (q : String)
    (h : ∀ e ∈ r, e.2 = none) :
    ∀ e ∈ setKey r q none, e.2 = (none : Option Bool) := by
  induction r with
  | nil =>
    intro e he
    rcases List.mem_singleton.mp he with rfl
    rfl
  | cons a as ih =>
    intro e he
    simp only [setKey] at he
    by_cases ha : a.1 = q
    · rw [if_pos ha] at he
      rcases List.mem_cons.mp he with rfl | he'
      · rfl
      · exact h e (List.mem_cons_of_mem a he')
    · rw [if_neg ha] at he
      rcases List.mem_cons.mp he with rfl | he'
      · exact h _ (List.mem_cons_self _ _)
      · exact ih (fun x hx => h x (List.mem_cons_of_mem a hx)) e he'

mutual

theorem insertTree_states_none (t : FNode) (r : Registry)
    (hr : ∀ e ∈ r, e.2 = none) (ht : treeStatesNone t = true) :
    ∀ e ∈ insertTree r t, e.2 = (none : Option Bool) := by
  cases t with
  | mk l q st kids =>
    have hst : st = none ∧ forestStatesNone kids = true := by
      simpa [treeStatesNone, Bool.and_eq_true] using ht
    simp only [insertTree]
    exact insertForest_states_none kids (setKey r q st)
      (hst.1 ▸ setKey_states_none r q hr) hst.2

theorem insertForest_states_none (F : List FNode) (r : Registry)
    (hr : ∀ e ∈ r, e.2 = none) (hF : forestStatesNone F = true) :
    ∀ e ∈ insertForest r F, e.2 = (none : Option Bool) := by
  cases F with
  | nil => simpa only [insertForest] using hr
  | cons t ts =>
    have h12 : treeStatesNone t = true ∧ forestStatesNone ts = true := by
      simpa [forestStatesNone, Bool.and_eq_true] using hF
    simp only [insertForest]
    exact insertForest_states_none ts (insertTree r t)
      (insertTree_states_none t r hr h12.1) h12.2

end

theorem overlay_idem (w st : Option Bool) : overlay w (overlay w st) = overlay w st := by
  cases w <;> rfl

theorem foldl_applyDirective_idem (ds : List Directive) (r : Registry) :
    ds.foldl applyDirective (ds.foldl applyDirective r) = ds.foldl applyDirective r := by
  rw [foldl_applyDirective_eq_map ds (ds.foldl applyDirective r),
    foldl_applyDirective_eq_map ds r, List.map_map]
  refine List.map_congr_left (fun e he => ?_)
  simp only [Function.comp]
  rw [overlay_idem]

theorem resolveTokens_congr (reg reg' : Registry) (h : regKeys reg = regKeys reg') :
    ∀ ts, resolveTokens reg ts = resolveTokens reg' ts := by
  intro ts
  induction ts with
  | nil => rfl
  | cons t ts ih =>
    simp only [resolveTokens]
    split
    · exact ih
    · rw [getFeature_congr reg reg' t h]
      cases getFeature reg' t with
      | notFound => rw [h]
      | obj n => rw [ih]
      | marker n => rw [ih]

theorem lookupEntry_mem (r : Registry) (n : String) (v : Option Bool)
    (h : lookupEntry r n = some v) : (n, v) ∈ r := by
  induction r with
  | nil => cases h
  | cons e es ih =>
    by_cases he : e.1 = n
    · simp only [lookupEntry, if_pos he] at h
      obtain rfl := Option.some.inj h
      obtain ⟨a, b⟩ := e
      obtain rfl : a = n := he
      exact List.mem_cons_self _ _
    · exact List.mem_cons_of_mem _ (ih (by simpa [lookupEntry, if_neg he] using h))

theorem wildIf_eq (reg : Registry) (s : String) :
    (if "-*" ∈ tokensOf s then wildcardPass reg else reg) =
      (if "-*" ∈ tokensOf s then rootMarkers reg else []).foldl applyDirective reg := by
  by_cases hww : "-*" ∈ tokensOf s
  · simp [hww, wildcardPass, loadFeatures]
  · simp [hww]

/-- Dissection of a successful `loadFeaturesFromString` call: resolution
succeeded and the result is the wildcard batch followed by the resolved
directives, applied over the input registry. -/
theorem loadFromString_ok_elim (reg reg1 : Registry) (s : String)
    (h1 : loadFeaturesFromString reg s = ⟨none, reg1⟩) :
    ∃ ds, resolveTokens (if "-*" ∈ tokensOf s then wildcardPass reg else reg) (tokensOf s)
        = .ok ds ∧
      reg1 = ((if "-*" ∈ tokensOf s then rootMarkers reg else []) ++ ds).foldl
        applyDirective reg := by
  rcases hres : resolveTokens (if "-*" ∈ tokensOf s then wildcardPass reg else reg)
      (tokensOf s) with e | ds
  · exfalso
    have h2 : loadFeaturesFromString reg s =
        ⟨some e, if "-*" ∈ tokensOf s then wildcardPass reg else reg⟩ := by
      simp only [loadFeaturesFromString]
      rw [hres]
    rw [h1] at h2
    exact Option.noConfusion (congrArg LoadOutcome.err h2)
  · refine ⟨ds, rfl, ?_⟩
    have h2 : loadFeaturesFromString reg s =
        ⟨none, loadFeatures (if "-*" ∈ tokensOf s then wildcardPass reg else reg) ds false⟩ := by
      simp only [loadFeaturesFromString]
      rw [hres]
    rw [h1] at h2
    have h3 := congrArg LoadOutcome.reg h2
    have hload : loadFeatures (if "-*" ∈ tokensOf s then wildcardPass reg else reg) ds false =
        ds.foldl applyDirective
          ((if "-*" ∈ tokensOf s then rootMarkers reg else []).foldl applyDirective reg) := by
      rw [← wildIf_eq]
      simp [loadFeatures]
    rw [show reg1 = loadFeatures (if "-*" ∈ tokensOf s then wildcardPass reg else reg) ds false
      from h3, hload, List.foldl_append]

/-- Loading the same configuration string again from the registry a
successful load produced changes nothing: the per-key writes are
determined by the (unchanged) key set and overwriting is idempotent. -/
theorem loadFromString_stable (reg reg1 : Registry) (s : String)
    (h1 : loadFeaturesFromString reg s = ⟨none, reg1⟩) :
    loadFeaturesFromString reg1 s = ⟨none, reg1⟩ := by
  obtain ⟨ds, hres, hreg1⟩ := loadFromString_ok_elim reg reg1 s h1
  set M := if "-*" ∈ tokensOf s then rootMarkers reg else [] with hM
  have hk1 : regKeys reg1 = regKeys reg := by
    rw [hreg1]
    exact regKeys_foldl_applyDirective _ _
  have hroot1 : (if "-*" ∈ tokensOf s then rootMarkers reg1 else []) = M := by
    rw [hM]
    by_cases hww : "-*" ∈ tokensOf s
    · simp only [if_pos hww]
      rw [rootMarkers_eq_keys, rootMarkers_eq_keys, hk1]
    · simp [hww]
  have hkeysw : regKeys (if "-*" ∈ tokensOf s then wildcardPass reg1 else reg1) =
      regKeys (if "-*" ∈ tokensOf s then wildcardPass reg else reg) := by
    rw [wildIf_eq, wildIf_eq, regKeys_foldl_applyDirective, regKeys_foldl_applyDirective, hk1]
  have hres1 : resolveTokens (if "-*" ∈ tokensOf s then wildcardPass reg1 else reg1)
      (tokensOf s) = .ok ds := by
    rw [resolveTokens_congr _ _ hkeysw, hres]
  have hstep : loadFeaturesFromString reg1 s =
      ⟨none, loadFeatures (if "-*" ∈ tokensOf s then wildcardPass reg1 else reg1) ds false⟩ := by
    simp only [loadFeaturesFromString]
    rw [hres1]
  have hload : loadFeatures (if "-*" ∈ tokensOf s then wildcardPass reg1 else reg1) ds false =
      ds.foldl applyDirective (M.foldl applyDirective reg1) := by
    rw [← hroot1, ← wildIf_eq]
    simp [loadFeatures]
  have hfix : ds.foldl applyDirective (M.foldl applyDirective reg1) = reg1 := by
    rw [hreg1, ← List.foldl_append]
    exact foldl_applyDirective_idem _ _
  rw [hstep, hload, hfix]

/-- Re-registering a forest whose objects carry the states a first
registration-and-load left on them rebuilds exactly that loaded registry. -/
theorem insertForest_update_foldl (F : List FNode) (W : List Directive)
    (hfresh : forestStatesNone F = true) :
    insertForest [] (updateForest (W.foldl applyDirective (insertForest [] F)) F) =
      W.foldl applyDirective (insertForest [] F) := by
  set base0 := insertForest [] F with hbase0
  set ρ := W.foldl applyDirective base0 with hρ
  have hnone : ∀ e ∈ base0, e.2 = none :=
    insertForest_states_none F [] (fun e he => absurd he (List.not_mem_nil e)) hfresh
  have hA : insertForest [] (updateForest ρ F) = overwriteFrom ρ base0 := by
    have h := insertForest_overwrite ρ F []
    rw [show overwriteFrom ρ [] = [] from rfl] at h
    rw [h, hbase0]
  rw [hA]
  have hentry : ∀ e ∈ base0, (e.1, (lookupEntry ρ e.1).getD e.2) =
      (e.1, overlay (writesOf W e.1) e.2) := by
    intro e he
    have hlook : lookupEntry ρ e.1 = (lookupEntry base0 e.1).map
        (fun st => overlay (writesOf W e.1) st) := by
      rw [hρ]
      exact lookupEntry_foldl_applyDirective W base0 e.1
    obtain ⟨st₀, hst₀⟩ : ∃ st₀, lookupEntry base0 e.1 = some st₀ := by
      have hm : e.1 ∈ regKeys base0 := List.mem_map.mpr ⟨e, he, rfl⟩
      have hreg := (isRegistered_iff_mem base0 e.1).mpr hm
      exact Option.isSome_iff_exists.mp (by simpa [isRegistered] using hreg)
    have h0 : st₀ = none := hnone _ (lookupEntry_mem base0 e.1 st₀ hst₀)
    rw [hlook, hst₀, h0, hnone e he]
    simp
  calc overwriteFrom ρ base0
      = base0.map (fun e => (e.1, overlay (writesOf W e.1) e.2)) :=
        List.map_congr_left hentry
    _ = W.foldl applyDirective base0 := (foldl_applyDirective_eq_map W base0).symm
    _ = ρ := hρ.symm

/-! ## Claim C7 -/

/-- C7: registering the same forest a second time with `override: true`
yields a registry equal — keys, entries, and hence every node's
`isFeatureEnabled` result — to the one the first (fresh) registration and
load produced, with no state leaked from the first registration (nor from
whatever registry contents preceded either call). The forest `F` is
freshly built (`defineFeature` sets no state); at the second call its
objects carry whatever states the first registration-and-load wrote on
them, which `updateForest reg1 F` records. -/
theorem registerFeatures_roundtrip (F : List FNode) (s : String)
    (regA regB reg1 : Registry)
    (hfresh : forestStatesNone F = true)
    (h1 : registerAndLoad regA F true s = ⟨none, reg1⟩) :
    registerAndLoad regB (updateForest reg1 F) true s = ⟨none, reg1⟩ ∧
    ∀ n own, isFeatureEnabled (registerAndLoad regB (updateForest reg1 F) true s).reg n own =
      isFeatureEnabled reg1 n own := by
  have h1' : loadFeaturesFromString (insertForest [] F) s = ⟨none, reg1⟩ := h1
  obtain ⟨ds, hres, hreg1⟩ := loadFromString_ok_elim (insertForest [] F) reg1 s h1'
  have hrebuild : insertForest [] (updateForest reg1 F) = reg1 := by
    rw [hreg1]
    exact insertForest_update_foldl F _ hfresh
  have hmain : registerAndLoad regB (updateForest reg1 F) true s = ⟨none, reg1⟩ := by
    show loadFeaturesFromString (insertForest [] (updateForest reg1 F)) s = ⟨none, reg1⟩
    rw [hrebuild]
    exact loadFromString_stable (insertForest [] F) reg1 s h1'
  exact ⟨hmain, fun n own => by rw [hmain]⟩

/-- C7 witness: the one-node forest `one`, registered over junk registries
with `override` and an empty configuration source, round-trips. -/
theorem registerFeatures_roundtrip_witness :
    registerAndLoad [("ww", some false)]
        (updateForest [("one", none)] [FNode.mk "one" "one" none []]) true "" =
      ⟨none, [("one", none)]⟩ :=
  (registerFeatures_roundtrip [FNode.mk "one" "one" none []] "" [("zz", some true)]
    [("ww", some false)] [("one", none)]
    (by simp [forestStatesNone, treeStatesNone])
    (by
      have hreg : registerFeatures [("zz", some true)] [FNode.mk "one" "one" none []] true =
          [("one", none)] := by
        simp [registerFeatures, insertForest, insertTree, setKey]
      show loadFeaturesFromString
        (registerFeatures [("zz", some true)] [FNode.mk "one" "one" none []] true) "" = _
      rw [hreg]
      rfl)).1

/-! ## The tree builder (`defineFeature` / `prefixFeatureName`)

Two renderings are needed. `prefixFeatureName` mutates the subfeature
objects in place (`subfeature[symFeatureName] = prefixedFeatureName`), so
object identity matters when a subtree is attached under several parents:
the heap rendering below models objects by address. The sharing-free
functional rendering (`BTree`) follows, for the invariant that holds of
each freshly built tree. -/

/-- A feature object on the heap: current `symFeatureName`, immutable
`symFeatureLeafName`, and the addresses of its enumerable sub-features. -/
structure HNode where
  qName : String
  leaf : String
  kids : List Nat
  deriving DecidableEq, Repr

/-- The object heap: address ↦ feature object. -/
abbrev Heap := List (Nat × HNode)

def hGet : Heap → Nat → Option HNode
  | [], _ => none
  | e :: es, i => if e.1 = i then some e.2 else hGet es i

/-- `subfeature[symFeatureName] = q` on the object at address `i`. -/
def hSetQ (hp : Heap) (i : Nat) (q : String) : Heap :=
  hp.map (fun e => if e.1 = i then (e.1, ⟨q, e.2.leaf, e.2.kids⟩) else e)

/-- `prefixFeatureName(feature, subfeatures)`: for each subfeature object,
overwrite its qualified name with `parent + "." + leafName` and recurse
into its children; `fuel` bounds the recursion depth (any value at least
the subtree depth computes the JS result, which terminates on the
tree-shaped records `defineFeature` builds). -/
def prefixNamesH : Nat → Heap → String → List Nat → Heap
  | 0, hp, _, _ => hp
  | fuel + 1, hp, parentQ, ids =>
    ids.foldl
      (fun hh i =>
        match hGet hh i with
        | none => hh
        | some nd =>
          prefixNamesH fuel (hSetQ hh i (parentQ ++ "." ++ nd.leaf))
            (parentQ ++ "." ++ nd.leaf) nd.kids)
      hp

/-- `defineFeature(name, subfeatures)` allocating the new object at the
fresh address `i`: qualified name and leaf name start as `name`, then the
already-built subfeature objects are renamed in place. -/
def defineFeatureH (hp : Heap) (i : Nat) (name : String) (kidIds : List Nat)
    (fuel : Nat) : Heap :=
  prefixNamesH fuel (hp ++ [(i, ⟨name, name, kidIds⟩)]) name kidIds

/-- Building `s`, then `a { s }`, then `b { s }` with the *same* subtree
object attached under both parents. -/
def sharedHeapDemo : Heap :=
  defineFeatureH (defineFeatureH (defineFeatureH [] 0 "s" [] 2) 1 "a" [0] 2) 2 "b" [0] 2

/-! ## Claim C6 -/

/-- C6 as frozen is false on the code: `prefixFeatureName` renames the
shared subtree object in place, so after attaching the already-built
subtree `s` under `"a"` and then under `"b"`, the node reached from `"a"`
(address `0`, the parent's only child) carries qualified name `"b.s"`,
not `"a" ++ "." ++ "s"` — the second attachment corrupted the names seen
through the first parent. -/
theorem prefixFeatureName_shared_subtree_corrupts :
    hGet sharedHeapDemo 1 = some ⟨"a", "a", [0]⟩ ∧
    hGet sharedHeapDemo 0 = some ⟨"b.s", "s", []⟩ ∧
    "b.s" ≠ "a" ++ "." ++ "s" := by
  decide

/-- A flag tree in the sharing-free functional rendering of the builder:
leaf name, current qualified name, children in record order. -/
inductive BTree where
  | mk (leaf : String) (qName : String) (kids : List BTree)

def BTree.leafName : BTree → String
  | .mk l _ _ => l

def BTree.qualifiedName : BTree → String
  | .mk _ q _ => q

mutual

/-- The rename cascade of `prefixFeatureName`, producing the renamed tree
instead of mutating: the node's qualified name becomes
`parent + "." + leafName`, and its children are renamed under that. -/
def renameTree (parentQ : String) : BTree → BTree
  | .mk l _ kids => .mk l (parentQ ++ "." ++ l) (renameForest (parentQ ++ "." ++ l) kids)

def renameForest (parentQ : String) : List BTree → List BTree
  | [] => []
  | t :: ts => renameTree parentQ t :: renameForest parentQ ts

end

/-- `defineFeature(name, subfeatures)` in the sharing-free rendering. -/
def defineFeatureB (name : String) (kids : List BTree) : BTree :=
  .mk name name (renameForest name kids)

mutual

/-- The naming invariant of the spec: every child's qualified name is its
parent's qualified name, a dot, and the child's leaf name — recursively. -/
def invTree : BTree → Prop
  | .mk _ q kids => invKids q kids

def invKids (parentQ : String) : List BTree → Prop
  | [] => True
  | t :: ts =>
    t.qualifiedName = parentQ ++ "." ++ t.leafName ∧ invTree t ∧ invKids parentQ ts

end

theorem renameTree_leafName (p : String) (t : BTree) :
    (renameTree p t).leafName = t.leafName := by
  cases t with
  | mk l q kids => simp [renameTree, BTree.leafName]

theorem renameTree_qualifiedName (p : String) (t : BTree) :
    (renameTree p t).qualifiedName = p ++ "." ++ t.leafName := by
  cases t with
  | mk l q kids => simp [renameTree, BTree.leafName, BTree.qualifiedName]

mutual

theorem invTree_rename (p : String) (t : BTree) : invTree (renameTree p t) := by
  cases t with
  | mk l q kids =>
    simp only [renameTree, invTree]
    exact invKids_rename (p ++ "." ++ l) kids

theorem invKids_rename (p : String) (ts : List BTree) : invKids p (renameForest p ts) := by
  cases ts with
  | nil => simp [renameForest, invKids]
  | cons t ts =>
    simp only [renameForest, invKids]
    exact ⟨by rw [renameTree_qualifiedName, renameTree_leafName], invTree_rename p t,
      invKids_rename p ts⟩

end

/-- C6 (amended): after `defineFeature` returns, the tree just built
satisfies the naming invariant throughout — every descendant's qualified
name equals its parent's qualified name + `"."` + its own leaf name —
for arbitrary (arbitrarily deep, previously built) attached subtrees,
provided no subtree object is shared between attachments; a shared object
is renamed in place per attachment, so only the most recent attachment's
names survive on it. -/
theorem defineFeature_establishes_name_invariant (name : String) (kids : List BTree) :
    invTree (defineFeatureB name kids) := by
  simp only [defineFeatureB, invTree]
  exact invKids_rename name kids

end XFeature

